import Mathlib

/-!
Verification of the `codex_runner.py` test orchestrator.

The development shallowly embeds the two algorithmic components of the
program — the dependency expander (`expand_dependencies` / `add_tier`,
source lines 46-67) and the tier-execution control loop of `main`
(source lines 126-147) — and proves the specified properties about them.

Modelling conventions:
* A tier configuration value is `Option Tier`: `some cfg` stands for a
  truthy mapping value, `none` for a value that is present but falsy
  (e.g. `null` or `{}`), matching Python truthiness in `if not meta`.
* The tier map `test_tiers` is an association list `TierMap` and
  `List.lookup` models Python dict lookup.
* Python's unbounded recursion in `add_tier` is embedded with a fuel
  parameter bounding recursion depth; `Err.fuelExhausted` models
  non-termination (a `RecursionError` in the source language): a run
  that exhausts every fuel bound is a non-terminating run.
* The external pytest invocation of `run_tier` is an oracle
  `env : String → Option Int` giving the exit code of the invocation
  for each tier name (`none` models the interrupted invocation, which
  the source reports as failure).
-/

/-- One entry of `test_tiers` after configuration parsing: `depends_on`
(default `[]`), `default_enabled` (default true) and `critical`
(default false) are read with `dict.get` defaults in the source. -/
structure Tier where
  depends_on : List String
  default_enabled : Bool
  critical : Bool
  deriving DecidableEq

/-- The `test_tiers` mapping: tier name to its (possibly falsy) value. -/
abbrev TierMap := List (String × Option Tier)

/-- The lookup performed by `add_tier` (line 55-56): `test_tiers.get(tier)`
followed by the truthiness test `if not meta`.  A missing key and a
present-but-falsy value both yield `none`. -/
def getMeta (m : TierMap) (t : String) : Option Tier :=
  match m.lookup t with
  | some (some cfg) => some cfg
  | _ => none

/-- `meta.get("depends_on", [])` of line 60, lifted to names: the
dependency list of a tier, empty when the tier is not (truthily) defined. -/
def depsOf (m : TierMap) (t : String) : List String :=
  match getMeta m t with
  | some cfg => cfg.depends_on
  | none => []

/-- A tier name with a truthy definition in `test_tiers`. -/
def definedTier (m : TierMap) (t : String) : Bool :=
  (getMeta m t).isSome

/-- The key list of the tier map. -/
def keysOf (m : TierMap) : List String :=
  m.map Prod.fst

/-- Outcomes of a failed expansion: the fatal `sys.exit(1)` on an
undefined tier (line 58), or exhaustion of the recursion budget
(modelling the unbounded recursion of a dependency cycle). -/
inductive Err where
  | undefinedTier : String → Err
  | fuelExhausted : Err
  deriving DecidableEq

/-- Sequencing of `add_tier` over a list of tier names, threading the
`ordered` accumulator and propagating a fatal error: this is both the
`for dep in meta.get("depends_on", [])` loop (line 60-61) and the
`for t in tiers` loop (line 64-65). -/
def stepList (step : String → List String → Except Err (List String)) :
    List String → List String → Except Err (List String)
  | [], ordered => .ok ordered
  | t :: ts, ordered =>
    match step t ordered with
    | .error e => .error e
    | .ok ordered2 => stepList step ts ordered2

/-- `add_tier` (lines 53-62): return if already placed, fail if the tier
is not (truthily) defined, otherwise place all dependencies first and
append the tier.  The mutable `ordered` list of the source is threaded
explicitly; `fuel` bounds the recursion depth. -/
def add_tier (m : TierMap) : Nat → String → List String → Except Err (List String)
  | fuel, t, ordered =>
    if t ∈ ordered then .ok ordered
    else
      match fuel with
      | 0 => .error .fuelExhausted
      | fuel2 + 1 =>
        match getMeta m t with
        | none => .error (.undefinedTier t)
        | some meta =>
          match stepList (fun d o => add_tier m fuel2 d o) meta.depends_on ordered with
          | .error e => .error e
          | .ok ordered2 => .ok (ordered2 ++ [t])

/-- `expand_dependencies` (lines 46-67): run `add_tier` over the
requested tier list starting from the empty plan. -/
def expand_dependencies (m : TierMap) (fuel : Nat) (tiers : List String) :
    Except Err (List String) :=
  stepList (fun t o => add_tier m fuel t o) tiers []

/-- Crashes of the executor loop: `test_tiers[tier_name]` raising on a
missing key (line 132), or a truthily-empty tier value crashing inside
`build_pytest_cmd` (line 70) before any invocation. -/
inductive ExecErr where
  | missingTier : String → ExecErr
  | emptyTierConfig : String → ExecErr
  deriving DecidableEq

/-- `run_tier` (lines 86-101) reduced to its observable result: the
invocation succeeds exactly when the external exit code is 0; an
interrupted or failed invocation (`none`) is reported as failure. -/
def run_tier (env : String → Option Int) (t : String) : Bool :=
  match env t with
  | some code => code == 0
  | none => false

/-- Record tier `t` as invoked in front of the result of the rest of the
loop (on both the normal and the crashed continuation). -/
def withInvoked (t : String) :
    Except (ExecErr × List String) (Bool × List String) →
    Except (ExecErr × List String) (Bool × List String)
  | .ok (o, inv) => .ok (o, t :: inv)
  | .error (e, inv) => .error (e, t :: inv)

/-- The `for tier_name in tiers_to_run` loop of `main` (lines 130-145):
skip disabled tiers, invoke the rest, clear `overall_ok` on failure and
stop on a critical failure.  The result carries the final `overall_ok`
flag and the list of tiers whose external command was invoked. -/
def main_loop (m : TierMap) (env : String → Option Int) :
    List String → Bool → Except (ExecErr × List String) (Bool × List String)
  | [], overall => .ok (overall, [])
  | t :: rest, overall =>
    match m.lookup t with
    | none => .error (.missingTier t, [])
    | some none => .error (.emptyTierConfig t, [])
    | some (some cfg) =>
      if cfg.default_enabled = false then
        main_loop m env rest overall
      else if run_tier env t then
        withInvoked t (main_loop m env rest overall)
      else if cfg.critical then
        .ok (false, [t])
      else
        withInvoked t (main_loop m env rest false)

/-- Whether the executor loop completed without crashing. -/
def execOk : Except (ExecErr × List String) (Bool × List String) → Bool
  | .ok _ => true
  | .error _ => false

/-- The tiers whose external command was invoked during the loop. -/
def invokedOf : Except (ExecErr × List String) (Bool × List String) → List String
  | .ok (_, inv) => inv
  | .error (_, inv) => inv

/-- Whether the run as a whole is a failure: `overall_ok` cleared, or the
loop crashed (an uncaught exception also terminates the process with a
nonzero status). -/
def aggFailed : Except (ExecErr × List String) (Bool × List String) → Bool
  | .ok (o, _) => !o
  | .error _ => true

/-- The parsed configuration file: `test_tiers` and `combinations`
(combination name to its `tiers` list). -/
structure Config where
  test_tiers : TierMap
  combinations : List (String × List String)

/-- `collect_tiers_for_combo` (lines 36-43): `none` models the
`sys.exit(1)` on an unknown combination. -/
def collect_tiers_for_combo (cfg : Config) (combo : String) : Option (List String) :=
  cfg.combinations.lookup combo

/-- `main` (lines 104-147) from the point where the configuration is
loaded: resolve the combination, expand dependencies, run the loop, and
exit 0 exactly when `overall_ok` survived.  The result is the process
exit status paired with the list of invoked tiers. -/
def main_run (cfg : Config) (combo : String) (env : String → Option Int)
    (fuel : Nat) : Nat × List String :=
  match collect_tiers_for_combo cfg combo with
  | none => (1, [])
  | some req =>
    match expand_dependencies cfg.test_tiers fuel req with
    | .error _ => (1, [])
    | .ok plan =>
      match main_loop cfg.test_tiers env plan true with
      | .error (_, inv) => (1, inv)
      | .ok (overall, inv) => (if overall then 0 else 1, inv)

/-- Reachability along `depends_on` edges: `Reach m t y` holds when `y`
is `t` itself or a transitive dependency of `t` (through truthily
defined tiers). -/
inductive Reach (m : TierMap) : String → String → Prop
  | refl (t : String) : Reach m t t
  | step {t y d : String} : Reach m t y → d ∈ depsOf m y → Reach m t d

/-- Reachability from any tier of a request list. -/
def ReachL (m : TierMap) (req : List String) (x : String) : Prop :=
  ∃ t ∈ req, Reach m t x

/-- A dependency cycle through `x`: some direct dependency of `x`
reaches `x` back. -/
def hasCycle (m : TierMap) (x : String) : Prop :=
  ∃ d ∈ depsOf m x, Reach m d x

/-- `DepthLe m n x`: every dependency chain starting at `x` has depth
less than `n` (the recursion budget `n` suffices below `x`). -/
inductive DepthLe (m : TierMap) : Nat → String → Prop
  | step {n : Nat} {t : String} :
      (∀ d ∈ depsOf m t, DepthLe m n d) → DepthLe m (n + 1) t

/-- Plan validity relative to an already-placed set `seen`: each element
is new, truthily defined, and has all dependencies among the previously
placed names.  `okFrom m [] plan` is the invariant of an execution plan. -/
def okFrom (m : TierMap) : List String → List String → Prop
  | _, [] => True
  | seen, t :: rest =>
    t ∉ seen ∧ (getMeta m t).isSome = true ∧ (∀ d ∈ depsOf m t, d ∈ seen) ∧
      okFrom m (t :: seen) rest

/-- Remove duplicate entries of a request list, keeping the first
occurrence of each name. -/
def dedupFirst : List String → List String
  | [] => []
  | t :: ts => t :: dedupFirst (ts.filter (fun x => x != t))
termination_by l => l.length
decreasing_by
  simpa using Nat.lt_succ_of_le (List.length_filter_le _ ts)

/-! ### Basic unfolding equations -/

/-- One-step unfolding of `add_tier`. -/
theorem add_tier_eq (m : TierMap) (fuel : Nat) (t : String) (o : List String) :
    add_tier m fuel t o =
      if t ∈ o then .ok o
      else
        match fuel with
        | 0 => .error .fuelExhausted
        | fuel2 + 1 =>
          match getMeta m t with
          | none => .error (.undefinedTier t)
          | some meta =>
            match stepList (fun d o => add_tier m fuel2 d o) meta.depends_on o with
            | .error e => .error e
            | .ok o2 => .ok (o2 ++ [t]) := by
  rw [add_tier.eq_def]

/-- `add_tier` on an already placed tier returns the plan unchanged. -/
theorem add_tier_skip {m : TierMap} {fuel : Nat} {t : String} {o : List String}
    (ht : t ∈ o) : add_tier m fuel t o = .ok o := by
  rw [add_tier_eq, if_pos ht]

/-- `add_tier` on a new tier with no remaining recursion budget. -/
theorem add_tier_zero {m : TierMap} {t : String} {o : List String}
    (ht : t ∉ o) : add_tier m 0 t o = .error .fuelExhausted := by
  rw [add_tier_eq, if_neg ht]

/-- `add_tier` on a new, undefined (or falsy) tier fails fatally. -/
theorem add_tier_succ_undef {m : TierMap} {fuel : Nat} {t : String} {o : List String}
    (ht : t ∉ o) (hg : getMeta m t = none) :
    add_tier m (fuel + 1) t o = .error (.undefinedTier t) := by
  rw [add_tier_eq, if_neg ht, hg]

/-- `add_tier` on a new, defined tier expands the dependencies first. -/
theorem add_tier_succ_def {m : TierMap} {fuel : Nat} {t : String} {o : List String}
    {meta : Tier} (ht : t ∉ o) (hg : getMeta m t = some meta) :
    add_tier m (fuel + 1) t o =
      match stepList (fun d o => add_tier m fuel d o) meta.depends_on o with
      | .error e => .error e
      | .ok o2 => .ok (o2 ++ [t]) := by
  rw [add_tier_eq, if_neg ht, hg]

theorem stepList_nil {step : String → List String → Except Err (List String)}
    {o : List String} : stepList step [] o = .ok o := rfl

theorem stepList_cons {step : String → List String → Except Err (List String)}
    {t : String} {ts o : List String} :
    stepList step (t :: ts) o =
      match step t o with
      | .error e => .error e
      | .ok o2 => stepList step ts o2 := rfl

/-! ### Reachability helpers -/

/-- Prepend one dependency edge in front of a reachability path. -/
theorem reach_prepend {m : TierMap} {t d y : String}
    (hd : d ∈ depsOf m t) (h : Reach m d y) : Reach m t y := by
  induction h with
  | refl => exact Reach.step (Reach.refl t) hd
  | step h1 h2 ih => exact Reach.step ih h2

/-- Reachability stays inside a dependency-closed name list. -/
theorem reach_mem_closed (m : TierMap) (L : List String)
    (hL : ∀ y ∈ L, ∀ d ∈ depsOf m y, d ∈ L) {x y : String}
    (hx : x ∈ L) (h : Reach m x y) : y ∈ L := by
  induction h with
  | refl => exact hx
  | step h1 h2 ih => exact hL _ ih _ h2

/-- A successful association-list lookup means the key is present. -/
theorem lookup_mem_keysOf {m : TierMap} {t : String} {v : Option Tier}
    (h : m.lookup t = some v) : t ∈ keysOf m := by
  induction m with
  | nil => simp [List.lookup] at h
  | cons p rest ih =>
    obtain ⟨k, w⟩ := p
    simp only [List.lookup] at h
    rcases hb : (t == k) with _ | _
    · rw [hb] at h
      exact List.mem_cons_of_mem _ (ih h)
    · have : t = k := eq_of_beq hb
      simp [keysOf, this]

/-- A truthily defined tier name is a key of the tier map. -/
theorem getMeta_mem_keysOf {m : TierMap} {t : String} {cfg : Tier}
    (h : getMeta m t = some cfg) : t ∈ keysOf m := by
  rcases hl : m.lookup t with _ | v
  · simp [getMeta, hl] at h
  · exact lookup_mem_keysOf hl

/-! ### Plan-invariant (`okFrom`) lemmas -/

theorem okFrom_nil {m : TierMap} {seen : List String} : okFrom m seen [] := by
  rw [okFrom]; trivial

theorem okFrom_notSeen {m : TierMap} :
    ∀ {l seen : List String} {x : String}, okFrom m seen l → x ∈ l → x ∉ seen := by
  intro l
  induction l with
  | nil => intro seen x _ hx; simp at hx
  | cons t rest ih =>
    intro seen x h hx
    obtain ⟨h1, _, _, h4⟩ := h
    rcases List.mem_cons.mp hx with rfl | hx2
    · exact h1
    · intro hs
      exact ih h4 hx2 (List.mem_cons_of_mem _ hs)

theorem okFrom_nodup {m : TierMap} :
    ∀ {l seen : List String}, okFrom m seen l → l.Nodup := by
  intro l
  induction l with
  | nil => intro seen _; simp
  | cons t rest ih =>
    intro seen h
    obtain ⟨_, _, _, h4⟩ := h
    refine List.nodup_cons.mpr ⟨?_, ih h4⟩
    intro htr
    exact okFrom_notSeen h4 htr (List.mem_cons_self t seen)

theorem okFrom_defined {m : TierMap} :
    ∀ {l seen : List String} {x : String},
      okFrom m seen l → x ∈ l → (getMeta m x).isSome = true := by
  intro l
  induction l with
  | nil => intro seen x _ hx; simp at hx
  | cons t rest ih =>
    intro seen x h hx
    obtain ⟨_, h2, _, h4⟩ := h
    rcases List.mem_cons.mp hx with rfl | hx2
    · exact h2
    · exact ih h4 hx2

/-- In a valid plan every dependency of a member is either already in
`seen` or placed at a strictly smaller index. -/
theorem okFrom_deps {m : TierMap} :
    ∀ {l seen : List String} {x d : String},
      okFrom m seen l → x ∈ l → d ∈ depsOf m x →
      d ∈ seen ∨ (d ∈ l ∧ l.indexOf d < l.indexOf x) := by
  intro l
  induction l with
  | nil => intro seen x d _ hx; simp at hx
  | cons t rest ih =>
    intro seen x d h hx hd
    obtain ⟨h1, h2, h3, h4⟩ := h
    rcases List.mem_cons.mp hx with rfl | hx2
    · exact Or.inl (h3 d hd)
    · have hxt : x ≠ t := by
        intro he
        exact okFrom_notSeen h4 hx2 (he ▸ List.mem_cons_self t seen)
      rcases ih h4 hx2 hd with hseen | ⟨hdl, hidx⟩
      · rcases List.mem_cons.mp hseen with rfl | hs2
        · refine Or.inr ⟨List.mem_cons_self d rest, ?_⟩
          rw [List.indexOf_cons_self, List.indexOf_cons_ne _ (Ne.symm hxt)]
          exact Nat.succ_pos _
        · exact Or.inl hs2
      · have hdt : d ≠ t := by
          intro he
          exact okFrom_notSeen h4 hdl (he ▸ List.mem_cons_self t seen)
        refine Or.inr ⟨List.mem_cons_of_mem _ hdl, ?_⟩
        rw [List.indexOf_cons_ne _ (Ne.symm hdt), List.indexOf_cons_ne _ (Ne.symm hxt)]
        exact Nat.succ_lt_succ hidx

/-- In a valid plan reachability only moves to earlier (or equal)
positions: the plan is topologically sorted. -/
theorem okFrom_reach_le {m : TierMap} {l : List String} {x y : String}
    (h : okFrom m [] l) (hx : x ∈ l) (hr : Reach m x y) :
    y ∈ l ∧ l.indexOf y ≤ l.indexOf x := by
  induction hr with
  | refl => exact ⟨hx, Nat.le_refl _⟩
  | step h1 h2 ih =>
    obtain ⟨hyl, hyle⟩ := ih
    rcases okFrom_deps h hyl h2 with hseen | ⟨hdl, hidx⟩
    · simp at hseen
    · exact ⟨hdl, Nat.le_trans (Nat.le_of_lt hidx) hyle⟩

/-- Appending a new, defined tier whose dependencies are already placed
preserves plan validity. -/
theorem okFrom_append {m : TierMap} :
    ∀ {l seen : List String} {x : String},
      okFrom m seen l → x ∉ seen → x ∉ l → (getMeta m x).isSome = true →
      (∀ d ∈ depsOf m x, d ∈ seen ∨ d ∈ l) → okFrom m seen (l ++ [x]) := by
  intro l
  induction l with
  | nil =>
    intro seen x _ hxs _ hdef hdeps
    refine ⟨hxs, hdef, ?_, okFrom_nil⟩
    intro d hd
    rcases hdeps d hd with h | h
    · exact h
    · simp at h
  | cons t rest ih =>
    intro seen x h hxs hxl hdef hdeps
    obtain ⟨h1, h2, h3, h4⟩ := h
    have hxt : x ≠ t := by
      intro he; exact hxl (he ▸ List.mem_cons_self t rest)
    refine ⟨h1, h2, h3, ?_⟩
    refine ih h4 ?_ (fun hxr => hxl (List.mem_cons_of_mem _ hxr)) hdef ?_
    · intro hx2
      rcases List.mem_cons.mp hx2 with rfl | hs2
      · exact hxt rfl
      · exact hxs hs2
    · intro d hd
      rcases hdeps d hd with hs | hl2
      · exact Or.inl (List.mem_cons_of_mem _ hs)
      · rcases List.mem_cons.mp hl2 with rfl | hr2
        · exact Or.inl (List.mem_cons_self d seen)
        · exact Or.inr hr2

/-! ### The expansion invariant -/

/-- The contract of one `add_tier` call: on success it preserves plan
validity, only appends, places its argument, and every newly placed name
is reachable from the argument. -/
def GoodStep (m : TierMap) (step : String → List String → Except Err (List String)) : Prop :=
  ∀ t o r, okFrom m [] o → step t o = .ok r →
    okFrom m [] r ∧ (∃ ext, r = o ++ ext) ∧ t ∈ r ∧
      ∀ x ∈ r, x ∈ o ∨ Reach m t x

/-- The contract lifts from a single step to a sequenced list of steps. -/
theorem goodStep_stepList {m : TierMap}
    {step : String → List String → Except Err (List String)}
    (hg : GoodStep m step) :
    ∀ ts o r, okFrom m [] o → stepList step ts o = .ok r →
      okFrom m [] r ∧ (∃ ext, r = o ++ ext) ∧ (∀ t ∈ ts, t ∈ r) ∧
        ∀ x ∈ r, x ∈ o ∨ ∃ t ∈ ts, Reach m t x := by
  intro ts
  induction ts with
  | nil =>
    intro o r ho h
    rw [stepList_nil] at h
    injection h with h
    subst h
    exact ⟨ho, ⟨[], by simp⟩, by simp, fun x hx => Or.inl hx⟩
  | cons t ts ih =>
    intro o r ho h
    rw [stepList_cons] at h
    rcases hs : step t o with e | o2 <;> rw [hs] at h
    · cases h
    · obtain ⟨ho2, ⟨e1, he1⟩, htm, hr2⟩ := hg t o o2 ho hs
      obtain ⟨hor, ⟨e2, he2⟩, hts, hrx⟩ := ih o2 r ho2 h
      refine ⟨hor, ⟨e1 ++ e2, by rw [he2, he1, List.append_assoc]⟩, ?_, ?_⟩
      · intro u hu
        rcases List.mem_cons.mp hu with rfl | hu2
        · rw [he2]
          exact List.mem_append_left _ htm
        · exact hts u hu2
      · intro x hx
        rcases hrx x hx with hxo2 | ⟨u, hu, hru⟩
        · rcases hr2 x hxo2 with hxo | hrt
          · exact Or.inl hxo
          · exact Or.inr ⟨t, List.mem_cons_self t ts, hrt⟩
        · exact Or.inr ⟨u, List.mem_cons_of_mem _ hu, hru⟩

/-- `add_tier` satisfies the step contract at every recursion budget. -/
theorem add_tier_good (m : TierMap) :
    ∀ fuel, GoodStep m (fun t o => add_tier m fuel t o) := by
  intro fuel
  induction fuel with
  | zero =>
    intro t o r ho h
    replace h : add_tier m 0 t o = .ok r := h
    by_cases ht : t ∈ o
    · rw [add_tier_skip ht] at h
      injection h with h
      subst h
      exact ⟨ho, ⟨[], by simp⟩, ht, fun x hx => Or.inl hx⟩
    · rw [add_tier_zero ht] at h
      cases h
  | succ f ih =>
    intro t o r ho h
    replace h : add_tier m (f + 1) t o = .ok r := h
    by_cases ht : t ∈ o
    · rw [add_tier_skip ht] at h
      injection h with h
      subst h
      exact ⟨ho, ⟨[], by simp⟩, ht, fun x hx => Or.inl hx⟩
    · rcases hg : getMeta m t with _ | meta
      · rw [add_tier_succ_undef ht hg] at h
        cases h
      · rw [add_tier_succ_def ht hg] at h
        rcases hs : stepList (fun d o => add_tier m f d o) meta.depends_on o
          with e | o2 <;> rw [hs] at h
        · cases h
        · injection h with h
          subst h
          obtain ⟨ho2, ⟨e1, he1⟩, hdeps, hr2⟩ :=
            goodStep_stepList ih meta.depends_on o o2 ho hs
          have hdepst : depsOf m t = meta.depends_on := by
            simp [depsOf, hg]
          have htno2 : t ∉ o2 := by
            intro hto2
            rcases hr2 t hto2 with hto | ⟨d, hd, hrd⟩
            · exact ht hto
            · have hdo2 : d ∈ o2 := hdeps d hd
              obtain ⟨hto2b, hle⟩ := okFrom_reach_le ho2 hdo2 hrd
              rcases okFrom_deps ho2 hto2 (hdepst ▸ hd) with hseen | ⟨_, hlt⟩
              · simp at hseen
              · omega
          refine ⟨?_, ⟨e1 ++ [t], by rw [he1, List.append_assoc]⟩, by simp, ?_⟩
          · refine okFrom_append ho2 (by simp) htno2 (by simp [hg]) ?_
            intro d hd
            exact Or.inr (hdeps d (hdepst ▸ hd))
          · intro x hx
            rcases List.mem_append.mp hx with hxo2 | hxt
            · rcases hr2 x hxo2 with hxo | ⟨d, hd, hrd⟩
              · exact Or.inl hxo
              · exact Or.inr (reach_prepend (hdepst ▸ hd) hrd)
            · have hxe : x = t := by simpa using hxt
              exact Or.inr (by rw [hxe]; exact Reach.refl t)

/-- Bundled consequences of a successful expansion. -/
theorem expand_ok_spec {m : TierMap} {fuel : Nat} {req plan : List String}
    (h : expand_dependencies m fuel req = .ok plan) :
    okFrom m [] plan ∧ (∀ t ∈ req, t ∈ plan) ∧
      ∀ x ∈ plan, ∃ t ∈ req, Reach m t x := by
  rw [expand_dependencies] at h
  obtain ⟨h1, _, h3, h4⟩ :=
    goodStep_stepList (add_tier_good m fuel) req [] plan okFrom_nil h
  refine ⟨h1, h3, ?_⟩
  intro x hx
  rcases h4 x hx with hc | hc
  · simp at hc
  · exact hc

/-! ### Concrete configurations used by the witnesses -/

/-- Tier map with `a` depending on `b`, both enabled and non-critical. -/
def mapAB : TierMap :=
  [("b", some ⟨[], true, false⟩), ("a", some ⟨["b"], true, false⟩)]

/-- Tier map with `a` depending on the undefined name `ghost`. -/
def mapGhost : TierMap :=
  [("a", some ⟨["ghost"], true, false⟩)]

/-- Tier map with a one-tier dependency cycle `a → a`. -/
def mapCyc : TierMap :=
  [("a", some ⟨["a"], true, false⟩)]

/-- Tier map where key `e` is present but its value is falsy. -/
def mapEmptyVal : TierMap :=
  [("a", some ⟨["e"], true, false⟩), ("e", none)]

/-- Independent tiers `a`, `b`, `c` with `b` critical. -/
def mapCrit : TierMap :=
  [("a", some ⟨[], true, false⟩), ("b", some ⟨[], true, true⟩),
   ("c", some ⟨[], true, false⟩)]

/-- Independent tiers `a`, `b`, `c`, all non-critical. -/
def mapNonCrit : TierMap :=
  [("a", some ⟨[], true, false⟩), ("b", some ⟨[], true, false⟩),
   ("c", some ⟨[], true, false⟩)]

/-- Tiers `a`, `b` enabled and a disabled tier `s`. -/
def mapSkip : TierMap :=
  [("a", some ⟨[], true, false⟩), ("s", some ⟨[], false, false⟩),
   ("b", some ⟨[], true, false⟩)]

/-- External oracle: every invocation exits 0. -/
def envAll0 : String → Option Int := fun _ => some 0

/-- External oracle: tier `b` exits 1, everything else exits 0. -/
def envBfail : String → Option Int := fun s => if s = "b" then some 1 else some 0

/-! ### C1 -/

/-- C1: for every tier map and request list, a plan returned by
`expand_dependencies` contains each requested tier and each of its
transitive dependencies exactly once, contains nothing else, has no
duplicate name, and places every `depends_on` entry of a plan member at
a strictly earlier position than the member itself. -/
theorem spec_c1 (m : TierMap) (fuel : Nat) (req plan : List String)
    (h : expand_dependencies m fuel req = .ok plan) :
    plan.Nodup ∧
    (∀ t ∈ req, plan.count t = 1) ∧
    (∀ t ∈ req, ∀ y, Reach m t y → plan.count y = 1) ∧
    (∀ x ∈ plan, ∃ t ∈ req, Reach m t x) ∧
    (∀ x ∈ plan, ∀ d ∈ depsOf m x, plan.indexOf d < plan.indexOf x) := by
  obtain ⟨hok, hreq, honly⟩ := expand_ok_spec h
  have hnd := okFrom_nodup hok
  refine ⟨hnd, ?_, ?_, honly, ?_⟩
  · intro t ht
    exact List.count_eq_one_of_mem hnd (hreq t ht)
  · intro t ht y hy
    exact List.count_eq_one_of_mem hnd (okFrom_reach_le hok (hreq t ht) hy).1
  · intro x hx d hd
    rcases okFrom_deps hok hx hd with hseen | ⟨_, hlt⟩
    · simp at hseen
    · exact hlt

/-- Witness for C1: the dependency `b` of the requested tier `a` is
placed exactly once and before `a`. -/
theorem spec_c1_witness :
    expand_dependencies mapAB 3 ["a"] = .ok ["b", "a"] ∧
      (["b", "a"] : List String).Nodup ∧
      (["b", "a"] : List String).indexOf "b" < (["b", "a"] : List String).indexOf "a" := by
  refine ⟨rfl, (spec_c1 mapAB 3 ["a"] ["b", "a"] rfl).1, ?_⟩
  exact (spec_c1 mapAB 3 ["a"] ["b", "a"] rfl).2.2.2.2 "a" (by simp) "b" (by decide)

/-! ### Executor-loop lemmas -/

theorem bool_eq_true_of_not_false {b : Bool} (h : ¬ b = false) : b = true := by
  cases b
  · exact absurd rfl h
  · rfl

theorem bool_eq_false_of_not_true {b : Bool} (h : ¬ b = true) : b = false := by
  cases b
  · rfl
  · exact absurd rfl h

theorem invokedOf_withInvoked (t : String)
    (r : Except (ExecErr × List String) (Bool × List String)) :
    invokedOf (withInvoked t r) = t :: invokedOf r := by
  rcases r with p | p <;> obtain ⟨x, y⟩ := p <;> rfl

theorem main_loop_nil {m : TierMap} {env : String → Option Int} {ov : Bool} :
    main_loop m env [] ov = .ok (ov, []) := rfl

theorem main_loop_cons (m : TierMap) (env : String → Option Int)
    (t : String) (rest : List String) (ov : Bool) :
    main_loop m env (t :: rest) ov =
      match m.lookup t with
      | none => .error (.missingTier t, [])
      | some none => .error (.emptyTierConfig t, [])
      | some (some cfg) =>
        if cfg.default_enabled = false then main_loop m env rest ov
        else if run_tier env t then withInvoked t (main_loop m env rest ov)
        else if cfg.critical then .ok (false, [t])
        else withInvoked t (main_loop m env rest false) := rfl

theorem main_loop_missing {m : TierMap} {env : String → Option Int}
    {t : String} {rest : List String} {ov : Bool} (hl : m.lookup t = none) :
    main_loop m env (t :: rest) ov = .error (.missingTier t, []) := by
  rw [main_loop_cons, hl]

theorem main_loop_emptyCfg {m : TierMap} {env : String → Option Int}
    {t : String} {rest : List String} {ov : Bool} (hl : m.lookup t = some none) :
    main_loop m env (t :: rest) ov = .error (.emptyTierConfig t, []) := by
  rw [main_loop_cons, hl]

theorem main_loop_skipT {m : TierMap} {env : String → Option Int}
    {t : String} {rest : List String} {ov : Bool} {cfg : Tier}
    (hl : m.lookup t = some (some cfg)) (hd : cfg.default_enabled = false) :
    main_loop m env (t :: rest) ov = main_loop m env rest ov := by
  rw [main_loop_cons, hl]
  simp [hd]

theorem main_loop_runOk {m : TierMap} {env : String → Option Int}
    {t : String} {rest : List String} {ov : Bool} {cfg : Tier}
    (hl : m.lookup t = some (some cfg)) (hd : cfg.default_enabled = true)
    (hr : run_tier env t = true) :
    main_loop m env (t :: rest) ov = withInvoked t (main_loop m env rest ov) := by
  rw [main_loop_cons, hl]
  simp [hd, hr]

theorem main_loop_failCrit {m : TierMap} {env : String → Option Int}
    {t : String} {rest : List String} {ov : Bool} {cfg : Tier}
    (hl : m.lookup t = some (some cfg)) (hd : cfg.default_enabled = true)
    (hr : run_tier env t = false) (hc : cfg.critical = true) :
    main_loop m env (t :: rest) ov = .ok (false, [t]) := by
  rw [main_loop_cons, hl]
  simp [hd, hr, hc]

theorem main_loop_failNC {m : TierMap} {env : String → Option Int}
    {t : String} {rest : List String} {ov : Bool} {cfg : Tier}
    (hl : m.lookup t = some (some cfg)) (hd : cfg.default_enabled = true)
    (hr : run_tier env t = false) (hc : cfg.critical = false) :
    main_loop m env (t :: rest) ov = withInvoked t (main_loop m env rest false) := by
  rw [main_loop_cons, hl]
  simp [hd, hr, hc]

/-- Every invoked tier is an enabled, truthily configured member of the
plan the loop was given. -/
theorem main_loop_invoked {m : TierMap} {env : String → Option Int} :
    ∀ {l : List String} {ov : Bool} {x : String},
      x ∈ invokedOf (main_loop m env l ov) →
      ∃ cfg, m.lookup x = some (some cfg) ∧ cfg.default_enabled = true ∧ x ∈ l := by
  intro l
  induction l with
  | nil =>
    intro ov x hx
    rw [main_loop_nil] at hx
    simp [invokedOf] at hx
  | cons t rest ih =>
    intro ov x hx
    rcases hl : m.lookup t with _ | v
    · rw [main_loop_missing hl] at hx
      simp [invokedOf] at hx
    · rcases v with _ | cfg
      · rw [main_loop_emptyCfg hl] at hx
        simp [invokedOf] at hx
      · by_cases hd : cfg.default_enabled = false
        · rw [main_loop_skipT hl hd] at hx
          obtain ⟨c2, h1, h2, h3⟩ := ih hx
          exact ⟨c2, h1, h2, List.mem_cons_of_mem _ h3⟩
        · have hdT := bool_eq_true_of_not_false hd
          by_cases hr : run_tier env t = true
          · rw [main_loop_runOk hl hdT hr, invokedOf_withInvoked] at hx
            rcases List.mem_cons.mp hx with rfl | hx2
            · exact ⟨cfg, hl, hdT, by simp⟩
            · obtain ⟨c2, h1, h2, h3⟩ := ih hx2
              exact ⟨c2, h1, h2, List.mem_cons_of_mem _ h3⟩
          · have hrF := bool_eq_false_of_not_true hr
            by_cases hc : cfg.critical = true
            · rw [main_loop_failCrit hl hdT hrF hc] at hx
              simp [invokedOf] at hx
              subst hx
              exact ⟨cfg, hl, hdT, List.mem_cons_self x rest⟩
            · have hcF := bool_eq_false_of_not_true hc
              rw [main_loop_failNC hl hdT hrF hcF, invokedOf_withInvoked] at hx
              rcases List.mem_cons.mp hx with rfl | hx2
              · exact ⟨cfg, hl, hdT, by simp⟩
              · obtain ⟨c2, h1, h2, h3⟩ := ih hx2
                exact ⟨c2, h1, h2, List.mem_cons_of_mem _ h3⟩

/-- Once `overall_ok` is false it can never become true again. -/
theorem main_loop_false {m : TierMap} {env : String → Option Int} :
    ∀ {l : List String} {o : Bool} {inv : List String},
      main_loop m env l false = .ok (o, inv) → o = false := by
  intro l
  induction l with
  | nil =>
    intro o inv h
    rw [main_loop_nil] at h
    injection h with h
    injection h with h1 h2
    exact h1.symm
  | cons t rest ih =>
    intro o inv h
    rcases hl : m.lookup t with _ | v
    · rw [main_loop_missing hl] at h
      cases h
    · rcases v with _ | cfg
      · rw [main_loop_emptyCfg hl] at h
        cases h
      · by_cases hd : cfg.default_enabled = false
        · rw [main_loop_skipT hl hd] at h
          exact ih h
        · have hdT := bool_eq_true_of_not_false hd
          by_cases hr : run_tier env t = true
          · rw [main_loop_runOk hl hdT hr] at h
            rcases hrec : main_loop m env rest false with p | p
            · rw [hrec] at h
              obtain ⟨e, inv2⟩ := p
              cases h
            · obtain ⟨o2, inv2⟩ := p
              rw [hrec] at h
              injection h with h
              injection h with h1 h2
              rw [← h1]
              exact ih hrec
          · have hrF := bool_eq_false_of_not_true hr
            by_cases hc : cfg.critical = true
            · rw [main_loop_failCrit hl hdT hrF hc] at h
              injection h with h
              injection h with h1 h2
              exact h1.symm
            · have hcF := bool_eq_false_of_not_true hc
              rw [main_loop_failNC hl hdT hrF hcF] at h
              rcases hrec : main_loop m env rest false with p | p
              · rw [hrec] at h
                obtain ⟨e, inv2⟩ := p
                cases h
              · obtain ⟨o2, inv2⟩ := p
                rw [hrec] at h
                injection h with h
                injection h with h1 h2
                rw [← h1]
                exact ih hrec

/-- On a plan whose tiers all have truthy configurations the loop never
crashes, and `overall_ok` survives exactly when the starting flag is
true and every invoked tier succeeded. -/
theorem exec_total_spec {m : TierMap} {env : String → Option Int} :
    ∀ {l : List String}, (∀ t ∈ l, ∃ cfg, m.lookup t = some (some cfg)) →
      ∀ ov, ∃ o inv, main_loop m env l ov = .ok (o, inv) ∧
        (o = true ↔ (ov = true ∧ ∀ t ∈ inv, run_tier env t = true)) := by
  intro l
  induction l with
  | nil =>
    intro _ ov
    refine ⟨ov, [], main_loop_nil, ?_⟩
    simp
  | cons t rest ih =>
    intro hdef ov
    obtain ⟨cfg, hl⟩ := hdef t (List.mem_cons_self t rest)
    have hrest : ∀ u ∈ rest, ∃ c, m.lookup u = some (some c) :=
      fun u hu => hdef u (List.mem_cons_of_mem _ hu)
    by_cases hd : cfg.default_enabled = false
    · obtain ⟨o, inv, heq, hiff⟩ := ih hrest ov
      exact ⟨o, inv, by rw [main_loop_skipT hl hd]; exact heq, hiff⟩
    · have hdT := bool_eq_true_of_not_false hd
      by_cases hr : run_tier env t = true
      · obtain ⟨o, inv, heq, hiff⟩ := ih hrest ov
        refine ⟨o, t :: inv, ?_, ?_⟩
        · rw [main_loop_runOk hl hdT hr, heq]
          rfl
        · rw [hiff]
          constructor
          · intro ⟨h1, h2⟩
            refine ⟨h1, ?_⟩
            intro u hu
            rcases List.mem_cons.mp hu with rfl | hu2
            · exact hr
            · exact h2 u hu2
          · intro ⟨h1, h2⟩
            exact ⟨h1, fun u hu => h2 u (List.mem_cons_of_mem _ hu)⟩
      · have hrF := bool_eq_false_of_not_true hr
        by_cases hc : cfg.critical = true
        · refine ⟨false, [t], by rw [main_loop_failCrit hl hdT hrF hc], ?_⟩
          constructor
          · intro h2
            cases h2
          · intro ⟨_, h2⟩
            have := h2 t (List.mem_cons_self t [])
            rw [hrF] at this
            cases this
        · have hcF := bool_eq_false_of_not_true hc
          obtain ⟨o, inv, heq, hiff⟩ := ih hrest false
          have hoF : o = false := by
            rcases h2 : o with _ | _
            · rfl
            · have := (hiff.mp h2).1
              cases this
          refine ⟨o, t :: inv, by rw [main_loop_failNC hl hdT hrF hcF, heq]; rfl, ?_⟩
          constructor
          · intro h2
            rw [hoF] at h2
            cases h2
          · intro ⟨_, h2⟩
            have := h2 t (List.mem_cons_self t inv)
            rw [hrF] at this
            cases this

/-- Every member of a successfully expanded plan has a truthy entry in
the tier map. -/
theorem expand_defined {m : TierMap} {fuel : Nat} {req plan : List String}
    (h : expand_dependencies m fuel req = .ok plan) :
    ∀ t ∈ plan, ∃ cfg, m.lookup t = some (some cfg) := by
  intro t ht
  have hs := okFrom_defined (expand_ok_spec h).1 ht
  rcases hl : m.lookup t with _ | v
  · simp [getMeta, hl] at hs
  · rcases v with _ | cfg
    · simp [getMeta, hl] at hs
    · exact ⟨cfg, rfl⟩

/-! ### C2 -/

/-- C2: on a run whose configuration resolves (known combination,
successful expansion), the process exit status is 0 or 1, and it is 0
exactly when every invoked tier's external command exited 0 (skipped
tiers are excluded: they are never invoked). -/
theorem spec_c2 (cfg : Config) (combo : String) (env : String → Option Int)
    (fuel : Nat) (req plan : List String)
    (hc : collect_tiers_for_combo cfg combo = some req)
    (he : expand_dependencies cfg.test_tiers fuel req = .ok plan) :
    ((main_run cfg combo env fuel).1 = 0 ∨ (main_run cfg combo env fuel).1 = 1) ∧
    ((main_run cfg combo env fuel).1 = 0 ↔
      ∀ t ∈ (main_run cfg combo env fuel).2, run_tier env t = true) := by
  obtain ⟨o, inv, heq, hiff⟩ :=
    @exec_total_spec cfg.test_tiers env plan (expand_defined he) true
  have hmr : main_run cfg combo env fuel = (if o then 0 else 1, inv) := by
    simp only [main_run, hc, he, heq]
  rw [hmr]
  rcases ho : o with _ | _
  · rw [ho] at hiff
    refine ⟨Or.inr (by simp), ?_⟩
    constructor
    · intro h2
      simp at h2
    · intro hall
      have : (false : Bool) = true := hiff.mpr ⟨rfl, hall⟩
      cases this
  · rw [ho] at hiff
    refine ⟨Or.inl (by simp), ?_⟩
    constructor
    · intro _
      exact (hiff.mp rfl).2
    · intro _
      simp

/-- Witness for C2: every tier of the expanded `smoke` plan passes and
the process exits 0. -/
theorem spec_c2_witness :
    (main_run ⟨mapAB, [("smoke", ["a"])]⟩ "smoke" envAll0 3).1 = 0 := by
  have h := spec_c2 ⟨mapAB, [("smoke", ["a"])]⟩ "smoke" envAll0 3 ["a"] ["b", "a"]
    rfl rfl
  exact h.2.mpr (by decide)

/-! ### C9 -/

/-- C9: every name in a plan produced by `expand_dependencies` has a
truthy entry in `test_tiers`, so the executor's unguarded
`test_tiers[tier_name]` lookup never fails on such a plan: the loop
always completes without crashing. -/
theorem spec_c9 (m : TierMap) (fuel : Nat) (req plan : List String)
    (h : expand_dependencies m fuel req = .ok plan) :
    (∀ t ∈ plan, definedTier m t = true) ∧
    ∀ env ov, execOk (main_loop m env plan ov) = true := by
  refine ⟨fun t ht => okFrom_defined (expand_ok_spec h).1 ht, ?_⟩
  intro env ov
  obtain ⟨o, inv, heq, _⟩ := @exec_total_spec m env plan (expand_defined h) ov
  rw [heq]
  rfl

/-- Witness for C9: the loop over the expanded plan of `mapAB` does not
crash. -/
theorem spec_c9_witness :
    execOk (main_loop mapAB envAll0 ["b", "a"] true) = true :=
  (spec_c9 mapAB 3 ["a"] ["b", "a"] rfl).2 envAll0 true

/-! ### C3 -/

/-- C3: in a plan `[a, b, c]` where `b` is enabled, critical, and its
invocation fails, the loop stops at `b`: `c` is never invoked (whatever
happens at `a`) and the aggregate result is failure, so the process
exits 1. -/
theorem spec_c3 (m : TierMap) (env : String → Option Int) (a b c : String)
    (cfgb : Tier) (ov : Bool)
    (hlb : m.lookup b = some (some cfgb))
    (hbe : cfgb.default_enabled = true) (hbc : cfgb.critical = true)
    (hbf : run_tier env b = false) (hca : c ≠ a) (hcb : c ≠ b) :
    aggFailed (main_loop m env [a, b, c] ov) = true ∧
      c ∉ invokedOf (main_loop m env [a, b, c] ov) := by
  have hbstep : ∀ ov2 : Bool, main_loop m env [b, c] ov2 = .ok (false, [b]) :=
    fun ov2 => main_loop_failCrit hlb hbe hbf hbc
  rcases hla : m.lookup a with _ | v
  · rw [main_loop_missing hla]
    exact ⟨rfl, by simp [invokedOf]⟩
  · rcases v with _ | cfga
    · rw [main_loop_emptyCfg hla]
      exact ⟨rfl, by simp [invokedOf]⟩
    · by_cases hd : cfga.default_enabled = false
      · rw [main_loop_skipT hla hd, hbstep]
        exact ⟨rfl, by simp [invokedOf, hcb]⟩
      · have hdT := bool_eq_true_of_not_false hd
        by_cases hr : run_tier env a = true
        · rw [main_loop_runOk hla hdT hr, hbstep]
          exact ⟨rfl, by simp [withInvoked, invokedOf, hca, hcb]⟩
        · have hrF := bool_eq_false_of_not_true hr
          by_cases hc2 : cfga.critical = true
          · rw [main_loop_failCrit hla hdT hrF hc2]
            exact ⟨rfl, by simp [invokedOf, hca]⟩
          · have hcF := bool_eq_false_of_not_true hc2
            rw [main_loop_failNC hla hdT hrF hcF, hbstep]
            exact ⟨rfl, by simp [withInvoked, invokedOf, hca, hcb]⟩

/-- Witness for C3: with `b` critical and failing, the loop over
`[a, b, c]` stops after `b` with an aggregate failure. -/
theorem spec_c3_witness :
    main_loop mapCrit envBfail ["a", "b", "c"] true = .ok (false, ["a", "b"]) ∧
      "c" ∉ invokedOf (main_loop mapCrit envBfail ["a", "b", "c"] true) := by
  refine ⟨rfl, ?_⟩
  exact (spec_c3 mapCrit envBfail "a" "b" "c" ⟨[], true, true⟩ true (by decide)
    (by decide) (by decide) (by decide) (by decide) (by decide)).2

/-! ### C4 -/

/-- C4: in a plan `[a, b, c]` where the step at `a` continues (it is
skipped, succeeds, or fails non-critically), `b` is enabled,
non-critical and fails, and `c` is enabled with a truthy configuration,
tier `c` is still invoked and the aggregate result is failure whatever
`c`'s outcome; moreover `overall_ok`, once false, is never reset. -/
theorem spec_c4 (m : TierMap) (env : String → Option Int) (a b c : String)
    (cfga cfgb cfgc : Tier)
    (hla : m.lookup a = some (some cfga))
    (hcont : cfga.default_enabled = false ∨ run_tier env a = true ∨
      cfga.critical = false)
    (hlb : m.lookup b = some (some cfgb)) (hbe : cfgb.default_enabled = true)
    (hbc : cfgb.critical = false) (hbf : run_tier env b = false)
    (hlc : m.lookup c = some (some cfgc)) (hce : cfgc.default_enabled = true) :
    (execOk (main_loop m env [a, b, c] true) = true ∧
     aggFailed (main_loop m env [a, b, c] true) = true ∧
     c ∈ invokedOf (main_loop m env [a, b, c] true)) ∧
    ∀ (l : List String) (o : Bool) (inv : List String),
      main_loop m env l false = .ok (o, inv) → o = false := by
  have hcstep : main_loop m env [c] false = .ok (false, [c]) := by
    by_cases hr : run_tier env c = true
    · rw [main_loop_runOk hlc hce hr, main_loop_nil]
      rfl
    · have hrF := bool_eq_false_of_not_true hr
      by_cases hcc : cfgc.critical = true
      · rw [main_loop_failCrit hlc hce hrF hcc]
      · rw [main_loop_failNC hlc hce hrF (bool_eq_false_of_not_true hcc),
          main_loop_nil]
        rfl
  have hbcstep : ∀ ov2 : Bool, main_loop m env [b, c] ov2 = .ok (false, [b, c]) := by
    intro ov2
    rw [main_loop_failNC hlb hbe hbf hbc, hcstep]
    rfl
  refine ⟨?_, fun l o inv h => main_loop_false h⟩
  by_cases hd : cfga.default_enabled = false
  · rw [main_loop_skipT hla hd, hbcstep]
    exact ⟨rfl, rfl, by simp [invokedOf]⟩
  · have hdT := bool_eq_true_of_not_false hd
    by_cases hr : run_tier env a = true
    · rw [main_loop_runOk hla hdT hr, hbcstep]
      exact ⟨rfl, rfl, by simp [withInvoked, invokedOf]⟩
    · have hrF := bool_eq_false_of_not_true hr
      have hcaF : cfga.critical = false := by
        rcases hcont with h2 | h2 | h2
        · exact absurd h2 hd
        · exact absurd h2 hr
        · exact h2
      rw [main_loop_failNC hla hdT hrF hcaF, hbcstep]
      exact ⟨rfl, rfl, by simp [withInvoked, invokedOf]⟩

/-- Witness for C4: with `b` non-critical and failing, `c` is still
invoked and the aggregate result is failure. -/
theorem spec_c4_witness :
    execOk (main_loop mapNonCrit envBfail ["a", "b", "c"] true) = true ∧
      aggFailed (main_loop mapNonCrit envBfail ["a", "b", "c"] true) = true ∧
      "c" ∈ invokedOf (main_loop mapNonCrit envBfail ["a", "b", "c"] true) :=
  (spec_c4 mapNonCrit envBfail "a" "b" "c" ⟨[], true, false⟩ ⟨[], true, false⟩
    ⟨[], true, false⟩ (by decide) (Or.inr (Or.inl (by decide))) (by decide)
    (by decide) (by decide) (by decide) (by decide) (by decide)).1

/-! ### C5 -/

/-- C5: a tier whose configuration disables it (`default_enabled`
false) is never invoked by the loop, and removing it from any plan
leaves the loop's result — aggregate flag, invoked tiers and crash
behaviour — completely unchanged. -/
theorem spec_c5 (m : TierMap) (env : String → Option Int) (t : String)
    (cfg : Tier) (hl : m.lookup t = some (some cfg))
    (hd : cfg.default_enabled = false) :
    (∀ (l1 l2 : List String) (ov : Bool),
      main_loop m env (l1 ++ t :: l2) ov = main_loop m env (l1 ++ l2) ov) ∧
    ∀ (l : List String) (ov : Bool), t ∉ invokedOf (main_loop m env l ov) := by
  constructor
  · intro l1
    induction l1 with
    | nil =>
      intro l2 ov
      exact main_loop_skipT hl hd
    | cons u l1 ih =>
      intro l2 ov
      simp only [List.cons_append]
      rcases hlu : m.lookup u with _ | v
      · rw [main_loop_missing hlu, main_loop_missing hlu]
      · rcases v with _ | cfgu
        · rw [main_loop_emptyCfg hlu, main_loop_emptyCfg hlu]
        · by_cases hdu : cfgu.default_enabled = false
          · rw [main_loop_skipT hlu hdu, main_loop_skipT hlu hdu, ih]
          · have hduT := bool_eq_true_of_not_false hdu
            by_cases hru : run_tier env u = true
            · rw [main_loop_runOk hlu hduT hru, main_loop_runOk hlu hduT hru, ih]
            · have hruF := bool_eq_false_of_not_true hru
              by_cases hcu : cfgu.critical = true
              · rw [main_loop_failCrit hlu hduT hruF hcu,
                  main_loop_failCrit hlu hduT hruF hcu]
              · have hcuF := bool_eq_false_of_not_true hcu
                rw [main_loop_failNC hlu hduT hruF hcuF,
                  main_loop_failNC hlu hduT hruF hcuF, ih]
  · intro l ov ht
    obtain ⟨cfg2, hl2, hd2, _⟩ := main_loop_invoked ht
    rw [hl] at hl2
    injection hl2 with hl2
    injection hl2 with hl2
    rw [← hl2, hd] at hd2
    cases hd2

/-- Witness for C5: the disabled tier `s` is skipped and contributes
nothing. -/
theorem spec_c5_witness :
    main_loop mapSkip envAll0 ["a", "s", "b"] true =
      main_loop mapSkip envAll0 ["a", "b"] true ∧
    "s" ∉ invokedOf (main_loop mapSkip envAll0 ["a", "s", "b"] true) := by
  have h := spec_c5 mapSkip envAll0 "s" ⟨[], false, false⟩ (by decide) (by decide)
  exact ⟨h.1 ["a"] ["b"] true, h.2 ["a", "s", "b"] true⟩

/-! ### Duplicate-request idempotence -/

/-- A successfully placed tier is in the resulting plan. -/
theorem add_tier_mem {m : TierMap} {fuel : Nat} {t : String} {o r : List String}
    (h : add_tier m fuel t o = .ok r) : t ∈ r := by
  by_cases ht : t ∈ o
  · rw [add_tier_skip ht] at h
    injection h with h
    exact h ▸ ht
  · cases fuel with
    | zero =>
      rw [add_tier_zero ht] at h
      cases h
    | succ f =>
      rcases hg : getMeta m t with _ | meta
      · rw [add_tier_succ_undef ht hg] at h
        cases h
      · rw [add_tier_succ_def ht hg] at h
        rcases hs : stepList (fun d o => add_tier m f d o) meta.depends_on o
          with e | o2 <;> rw [hs] at h
        · cases h
        · injection h with h
          rw [← h]
          simp

theorem stepList_grows {step : String → List String → Except Err (List String)}
    (hstep : ∀ t o r, step t o = .ok r → ∃ ext, r = o ++ ext) :
    ∀ ts o r, stepList step ts o = .ok r → ∃ ext, r = o ++ ext := by
  intro ts
  induction ts with
  | nil =>
    intro o r h
    rw [stepList_nil] at h
    injection h with h
    exact ⟨[], by simp [h]⟩
  | cons t ts ih =>
    intro o r h
    rw [stepList_cons] at h
    rcases hs : step t o with e | o2 <;> rw [hs] at h
    · cases h
    · obtain ⟨e1, he1⟩ := hstep t o o2 hs
      obtain ⟨e2, he2⟩ := ih o2 r h
      exact ⟨e1 ++ e2, by rw [he2, he1, List.append_assoc]⟩

/-- `add_tier` only ever appends to the plan. -/
theorem add_tier_grows {m : TierMap} :
    ∀ (fuel : Nat) (t : String) (o r : List String),
      add_tier m fuel t o = .ok r → ∃ ext, r = o ++ ext := by
  intro fuel
  induction fuel with
  | zero =>
    intro t o r h
    by_cases ht : t ∈ o
    · rw [add_tier_skip ht] at h
      injection h with h
      exact ⟨[], by simp [h]⟩
    · rw [add_tier_zero ht] at h
      cases h
  | succ f ih =>
    intro t o r h
    by_cases ht : t ∈ o
    · rw [add_tier_skip ht] at h
      injection h with h
      exact ⟨[], by simp [h]⟩
    · rcases hg : getMeta m t with _ | meta
      · rw [add_tier_succ_undef ht hg] at h
        cases h
      · rw [add_tier_succ_def ht hg] at h
        rcases hs : stepList (fun d o => add_tier m f d o) meta.depends_on o
          with e | o2 <;> rw [hs] at h
        · cases h
        · injection h with h
          obtain ⟨e1, he1⟩ := stepList_grows (fun t o r hh => ih t o r hh) _ _ _ hs
          exact ⟨e1 ++ [t], by rw [← h, he1, List.append_assoc]⟩

/-- Entries already placed in the accumulator can be dropped from the
work list without changing the outcome. -/
theorem stepList_drop_placed {step : String → List String → Except Err (List String)}
    (hskip : ∀ t o, t ∈ o → step t o = .ok o)
    (hgrow : ∀ t o r, step t o = .ok r → ∃ ext, r = o ++ ext) {x : String} :
    ∀ (ts o : List String), x ∈ o →
      stepList step ts o = stepList step (ts.filter (fun y => y != x)) o := by
  intro ts
  induction ts with
  | nil =>
    intro o _
    rfl
  | cons t ts ih =>
    intro o hx
    by_cases hxt : t = x
    · subst hxt
      have hf : (t :: ts).filter (fun y => y != t) = ts.filter (fun y => y != t) := by
        simp
      rw [hf, stepList_cons, hskip t o hx]
      exact ih o hx
    · have hb : (t != x) = true := by
        simpa using hxt
      have hf : (t :: ts).filter (fun y => y != x) =
          t :: ts.filter (fun y => y != x) := by
        simp [List.filter_cons, hb]
      rw [hf, stepList_cons, stepList_cons]
      rcases hs : step t o with e | o2
      · rfl
      · obtain ⟨ext, he⟩ := hgrow t o o2 hs
        exact ih o2 (by rw [he]; exact List.mem_append_left _ hx)

/-- Removing duplicate entries (keeping first occurrences) from the work
list does not change the outcome of the sequenced steps. -/
theorem stepList_dedupFirst {step : String → List String → Except Err (List String)}
    (hskip : ∀ t o, t ∈ o → step t o = .ok o)
    (hgrow : ∀ t o r, step t o = .ok r → ∃ ext, r = o ++ ext)
    (hmem : ∀ t o r, step t o = .ok r → t ∈ r) :
    ∀ (ts o : List String), stepList step ts o = stepList step (dedupFirst ts) o := by
  intro ts
  induction ts using dedupFirst.induct with
  | case1 =>
    intro o
    rw [dedupFirst]
  | case2 t ts ih =>
    intro o
    rw [dedupFirst, stepList_cons, stepList_cons]
    rcases hs : step t o with e | o2
    · rfl
    · show stepList step ts o2 =
        stepList step (dedupFirst (ts.filter (fun y => y != t))) o2
      rw [stepList_drop_placed hskip hgrow ts o2 (hmem t o o2 hs)]
      exact ih o2

/-! ### C7 -/

/-- C7: `expand_dependencies` is idempotent with respect to duplicate
requests: a request list yields exactly the same outcome (plan or
error) as the same list with duplicates removed, keeping first
occurrences. -/
theorem spec_c7 (m : TierMap) (fuel : Nat) (tiers : List String) :
    expand_dependencies m fuel tiers =
      expand_dependencies m fuel (dedupFirst tiers) := by
  rw [expand_dependencies, expand_dependencies]
  exact stepList_dedupFirst (fun t o ht => add_tier_skip ht)
    (fun t o r h => add_tier_grows fuel t o r h)
    (fun t o r h => add_tier_mem h) tiers []

/-! ### Error and termination analysis of the expansion -/

/-- A fatal error of the sequenced steps arises in one of the step calls. -/
theorem stepList_error_cause {step : String → List String → Except Err (List String)}
    {e : Err} :
    ∀ (ts o : List String), stepList step ts o = .error e →
      ∃ t ∈ ts, ∃ o2, step t o2 = .error e := by
  intro ts
  induction ts with
  | nil =>
    intro o h
    rw [stepList_nil] at h
    cases h
  | cons t ts ih =>
    intro o h
    rw [stepList_cons] at h
    rcases hs : step t o with e2 | o2 <;> rw [hs] at h
    · injection h with h
      subst h
      exact ⟨t, by simp, o, hs⟩
    · obtain ⟨t2, ht2, o3, h3⟩ := ih o2 h
      exact ⟨t2, by simp [ht2], o3, h3⟩

/-- The tier named by an `undefinedTier` failure of `add_tier` is
reachable from the visited tier and has no truthy definition. -/
theorem add_tier_undef {m : TierMap} :
    ∀ (fuel : Nat) (t : String) (o : List String) (u : String),
      add_tier m fuel t o = .error (.undefinedTier u) →
      Reach m t u ∧ getMeta m u = none := by
  intro fuel
  induction fuel with
  | zero =>
    intro t o u h
    by_cases ht : t ∈ o
    · rw [add_tier_skip ht] at h
      cases h
    · rw [add_tier_zero ht] at h
      injection h with h
      cases h
  | succ f ih =>
    intro t o u h
    by_cases ht : t ∈ o
    · rw [add_tier_skip ht] at h
      cases h
    · rcases hg : getMeta m t with _ | meta
      · rw [add_tier_succ_undef ht hg] at h
        injection h with h
        injection h with h
        subst h
        exact ⟨Reach.refl t, hg⟩
      · rw [add_tier_succ_def ht hg] at h
        rcases hs : stepList (fun d o => add_tier m f d o) meta.depends_on o
          with e | o2 <;> rw [hs] at h
        · injection h with h
          subst h
          obtain ⟨d, hd, o3, hcall⟩ := stepList_error_cause meta.depends_on o hs
          obtain ⟨hr, hgu⟩ := ih d o3 u hcall
          have hdep : d ∈ depsOf m t := by
            rw [depsOf, hg]
            exact hd
          exact ⟨reach_prepend hdep hr, hgu⟩
        · cases h

/-- The tier named by an `undefinedTier` failure of
`expand_dependencies` is reachable from the request and undefined. -/
theorem expand_undef_cause {m : TierMap} {fuel : Nat} {req : List String}
    {u : String} (h : expand_dependencies m fuel req = .error (.undefinedTier u)) :
    (∃ t ∈ req, Reach m t u) ∧ getMeta m u = none := by
  rw [expand_dependencies] at h
  obtain ⟨t, ht, o2, hcall⟩ := stepList_error_cause req [] h
  obtain ⟨hr, hg⟩ := add_tier_undef fuel t o2 u hcall
  exact ⟨⟨t, ht, hr⟩, hg⟩

/-- A successful expansion rules out any dependency cycle among the
tiers reachable from the request. -/
theorem expand_ok_no_cycle {m : TierMap} {fuel : Nat} {req plan : List String}
    (h : expand_dependencies m fuel req = .ok plan) :
    ∀ x, ReachL m req x → ¬ hasCycle m x := by
  intro x hrl hcy
  obtain ⟨t, ht, hr⟩ := hrl
  obtain ⟨d, hd, hdr⟩ := hcy
  obtain ⟨hok, hreq, _⟩ := expand_ok_spec h
  have hx : x ∈ plan := (okFrom_reach_le hok (hreq t ht) hr).1
  rcases okFrom_deps hok hx hd with hseen | ⟨hdl, hlt⟩
  · simp at hseen
  · have hle := (okFrom_reach_le hok hdl hdr).2
    omega

/-- If a tier without a truthy definition is reachable from the
request, the expansion can never return a plan. -/
theorem expand_reach_undef_never_ok {m : TierMap} {req : List String} {u : String}
    (hu : getMeta m u = none) (hr : ∃ t ∈ req, Reach m t u) :
    ∀ (fuel : Nat) (plan : List String),
      expand_dependencies m fuel req ≠ .ok plan := by
  intro fuel plan h
  obtain ⟨t, ht, htu⟩ := hr
  obtain ⟨hok, hreq, _⟩ := expand_ok_spec h
  have hmem : u ∈ plan := (okFrom_reach_le hok (hreq t ht) htu).1
  have hdef := okFrom_defined hok hmem
  rw [hu] at hdef
  cases hdef

theorem stepList_ne_fuel {step : String → List String → Except Err (List String)} :
    ∀ ts : List String, (∀ t ∈ ts, ∀ o, step t o ≠ .error .fuelExhausted) →
      ∀ o, stepList step ts o ≠ .error .fuelExhausted := by
  intro ts
  induction ts with
  | nil =>
    intro _ o h
    rw [stepList_nil] at h
    cases h
  | cons t ts ih =>
    intro hall o h
    rw [stepList_cons] at h
    rcases hs : step t o with e | o2 <;> rw [hs] at h
    · injection h with h
      subst h
      exact hall t (by simp) o hs
    · exact ih (fun u hu o3 => hall u (by simp [hu]) o3) o2 h

/-- A recursion budget dominating the dependency depth of a tier never
exhausts the fuel. -/
theorem depthLe_ne_fuel {m : TierMap} {n : Nat} {t : String}
    (h : DepthLe m n t) : ∀ o, add_tier m n t o ≠ .error .fuelExhausted := by
  induction h with
  | step hdeps ih =>
    rename_i n2 t2
    intro o hcontra
    by_cases ht : t2 ∈ o
    · rw [add_tier_skip ht] at hcontra
      cases hcontra
    · rcases hg : getMeta m t2 with _ | meta
      · rw [add_tier_succ_undef ht hg] at hcontra
        injection hcontra with h2
        cases h2
      · rw [add_tier_succ_def ht hg] at hcontra
        rcases hs : stepList (fun d o => add_tier m n2 d o) meta.depends_on o
          with e | o2 <;> rw [hs] at hcontra
        · injection hcontra with h2
          subst h2
          have hdeps2 : ∀ d ∈ meta.depends_on, ∀ o3,
              add_tier m n2 d o3 ≠ .error .fuelExhausted := by
            intro d hd o3
            refine ih d ?_ o3
            rw [depsOf, hg]
            exact hd
          exact stepList_ne_fuel meta.depends_on hdeps2 o hs
        · cases hcontra

/-- With a budget dominating every requested tier's depth, expansion
never exhausts the fuel. -/
theorem expand_ne_fuel {m : TierMap} {req : List String} {n : Nat}
    (h : ∀ t ∈ req, DepthLe m n t) :
    expand_dependencies m n req ≠ .error .fuelExhausted := by
  rw [expand_dependencies]
  exact stepList_ne_fuel req (fun t ht o => depthLe_ne_fuel (h t ht) o) []

theorem nodup_subset_length {l l2 : List String} (hn : l.Nodup)
    (hs : ∀ x ∈ l, x ∈ l2) : l.length ≤ l2.length :=
  (List.Nodup.subperm hn hs).length_le

/-- When no tier reachable from the request lies on a dependency cycle,
the dependency depth below any reachable tier is bounded by the number
of keys of the tier map: the strict-ancestor chain built along any
dependency path consists of distinct defined tiers. -/
theorem no_cycle_depth {m : TierMap} {req : List String}
    (hnc : ∀ x, ReachL m req x → ¬ hasCycle m x) :
    ∀ (n : Nat) (seen : List String) (x : String),
      seen.Nodup → (∀ s ∈ seen, s ∈ keysOf m) → x ∉ seen →
      (∀ s ∈ seen, ∃ e ∈ depsOf m s, Reach m e x) →
      ReachL m req x →
      (keysOf m).length + 1 ≤ n + seen.length →
      DepthLe m n x := by
  intro n
  induction n with
  | zero =>
    intro seen x hnd hsub hx hanc hrl hlen
    exfalso
    have := nodup_subset_length hnd hsub
    omega
  | succ n ih =>
    intro seen x hnd hsub hx hanc hrl hlen
    rcases hg : getMeta m x with _ | meta
    · refine DepthLe.step ?_
      intro d hd
      rw [depsOf, hg] at hd
      simp at hd
    · refine DepthLe.step ?_
      intro d hd
      have hdx : d ∉ x :: seen := by
        intro hdm
        rcases List.mem_cons.mp hdm with rfl | hds
        · exact hnc d hrl ⟨d, hd, Reach.refl d⟩
        · obtain ⟨e, he, her⟩ := hanc d hds
          exact hnc x hrl ⟨d, hd, reach_prepend he her⟩
      refine ih (x :: seen) d (List.nodup_cons.mpr ⟨hx, hnd⟩) ?_ hdx ?_ ?_ ?_
      · intro s hs
        rcases List.mem_cons.mp hs with rfl | hs2
        · exact getMeta_mem_keysOf hg
        · exact hsub s hs2
      · intro s hs
        rcases List.mem_cons.mp hs with rfl | hs2
        · exact ⟨d, hd, Reach.refl d⟩
        · obtain ⟨e, he, her⟩ := hanc s hs2
          exact ⟨e, he, Reach.step her hd⟩
      · obtain ⟨t, ht, htr⟩ := hrl
        exact ⟨t, ht, Reach.step htr hd⟩
      · simp only [List.length_cons]
        omega

/-- Cycle-freeness of the reachable subgraph bounds the depth of every
requested tier by the key count of the map. -/
theorem no_cycle_depth_req {m : TierMap} {req : List String}
    (hnc : ∀ x, ReachL m req x → ¬ hasCycle m x) :
    ∀ t ∈ req, DepthLe m ((keysOf m).length + 1) t := by
  intro t ht
  refine no_cycle_depth hnc ((keysOf m).length + 1) [] t (by simp) (by simp)
    (by simp) (by simp) ⟨t, ht, Reach.refl t⟩ (by simp)

theorem stepList_mono_eq {step1 step2 : String → List String → Except Err (List String)}
    (hs12 : ∀ t o, step1 t o ≠ .error .fuelExhausted → step2 t o = step1 t o) :
    ∀ (ts o : List String), stepList step1 ts o ≠ .error .fuelExhausted →
      stepList step2 ts o = stepList step1 ts o := by
  intro ts
  induction ts with
  | nil =>
    intro o _
    rfl
  | cons t ts ih =>
    intro o hne
    rw [stepList_cons, stepList_cons]
    rcases hs : step1 t o with e | o2
    · have he : e ≠ .fuelExhausted := by
        intro hef
        subst hef
        rw [stepList_cons, hs] at hne
        exact hne rfl
      rw [hs12 t o (by rw [hs]; intro hcc; injection hcc with hcc; exact he hcc), hs]
    · rw [hs12 t o (by rw [hs]; intro hcc; cases hcc), hs]
      show stepList step2 ts o2 = stepList step1 ts o2
      refine ih o2 ?_
      rw [stepList_cons, hs] at hne
      exact hne

/-- Enlarging a recursion budget that already suffices does not change
the result of `add_tier`. -/
theorem add_tier_mono {m : TierMap} :
    ∀ (f g : Nat), f ≤ g → ∀ (t : String) (o : List String),
      add_tier m f t o ≠ .error .fuelExhausted →
      add_tier m g t o = add_tier m f t o := by
  intro f
  induction f with
  | zero =>
    intro g _ t o hne
    by_cases ht : t ∈ o
    · rw [add_tier_skip ht, add_tier_skip ht]
    · exact absurd (add_tier_zero ht) hne
  | succ f ih =>
    intro g hle t o hne
    rcases g with _ | g2
    · exfalso
      omega
    · by_cases ht : t ∈ o
      · rw [add_tier_skip ht, add_tier_skip ht]
      · rcases hg : getMeta m t with _ | meta
        · rw [add_tier_succ_undef ht hg, add_tier_succ_undef ht hg]
        · rw [add_tier_succ_def ht hg] at hne
          rw [add_tier_succ_def ht hg, add_tier_succ_def ht hg]
          have hf : f ≤ g2 := by omega
          have hsl : stepList (fun d o => add_tier m f d o) meta.depends_on o ≠
              .error .fuelExhausted := by
            intro hcc
            rw [hcc] at hne
            exact hne rfl
          rw [stepList_mono_eq (fun t2 o2 hne2 => ih g2 hf t2 o2 hne2)
            meta.depends_on o hsl]

/-- Enlarging a sufficient recursion budget does not change the result
of `expand_dependencies`. -/
theorem expand_mono {m : TierMap} {req : List String} {f g : Nat} (hfg : f ≤ g)
    (hne : expand_dependencies m f req ≠ .error .fuelExhausted) :
    expand_dependencies m g req = expand_dependencies m f req := by
  rw [expand_dependencies, expand_dependencies]
  refine stepList_mono_eq (fun t o h2 => add_tier_mono f g hfg t o h2) req [] ?_
  intro hc
  refine hne ?_
  rw [expand_dependencies]
  exact hc

/-- Shared consequence of a tier without a truthy definition being
reachable from the request: no plan is ever produced, `main` exits 1
with no tier invoked, and — when the reachable subgraph is cycle-free —
the run fails with the `undefinedTier` configuration error. -/
theorem expand_reach_undef {m : TierMap} {req : List String} {u : String}
    (hu : getMeta m u = none) (hr : ∃ t ∈ req, Reach m t u) :
    (∀ (fuel : Nat) (plan : List String),
      expand_dependencies m fuel req ≠ .ok plan) ∧
    (∀ (fuel : Nat) (cbs : List (String × List String)) (combo : String)
        (env : String → Option Int), cbs.lookup combo = some req →
      main_run ⟨m, cbs⟩ combo env fuel = (1, [])) ∧
    ((∀ x, ReachL m req x → ¬ hasCycle m x) →
      ∃ u2, (∃ t ∈ req, Reach m t u2) ∧ getMeta m u2 = none ∧
        expand_dependencies m ((keysOf m).length + 1) req =
          .error (.undefinedTier u2)) := by
  have hnok := expand_reach_undef_never_ok hu hr
  refine ⟨hnok, ?_, ?_⟩
  · intro fuel cbs combo env hc
    rcases hcase : expand_dependencies m fuel req with e | plan
    · simp only [main_run, collect_tiers_for_combo, hc, hcase]
    · exact absurd hcase (hnok fuel plan)
  · intro hnc
    have hne := expand_ne_fuel (no_cycle_depth_req hnc)
    rcases hcase : expand_dependencies m ((keysOf m).length + 1) req with e | plan
    · rcases e with u2 | _
      · obtain ⟨hreach, hgu⟩ := expand_undef_cause hcase
        exact ⟨u2, hreach, hgu, rfl⟩
      · exact absurd hcase hne
    · exact absurd hcase (hnok _ plan)

/-! ### C6 -/

/-- C6: when the request reaches (directly or through dependencies) a
tier name absent from the tier map, `expand_dependencies` never
produces a plan, the process exits 1 before any tier is invoked, and —
the reachable subgraph being cycle-free — the failure is the fatal
`undefinedTier` configuration error. -/
theorem spec_c6 (m : TierMap) (req : List String) (t u : String)
    (ht : t ∈ req) (hr : Reach m t u) (hu : m.lookup u = none) :
    (∀ (fuel : Nat) (plan : List String),
      expand_dependencies m fuel req ≠ .ok plan) ∧
    (∀ (fuel : Nat) (cbs : List (String × List String)) (combo : String)
        (env : String → Option Int), cbs.lookup combo = some req →
      main_run ⟨m, cbs⟩ combo env fuel = (1, [])) ∧
    ((∀ x, ReachL m req x → ¬ hasCycle m x) →
      ∃ u2, (∃ t2 ∈ req, Reach m t2 u2) ∧ getMeta m u2 = none ∧
        expand_dependencies m ((keysOf m).length + 1) req =
          .error (.undefinedTier u2)) := by
  have hgu : getMeta m u = none := by
    simp [getMeta, hu]
  exact expand_reach_undef hgu ⟨t, ht, hr⟩

/-- Witness for C6: requesting `a`, which depends on the undefined
`ghost`, makes the whole run exit 1 with no tier invoked. -/
theorem spec_c6_witness :
    main_run ⟨mapGhost, [("smoke", ["a"])]⟩ "smoke" envAll0 5 = (1, []) := by
  have hr : Reach mapGhost "a" "ghost" :=
    Reach.step (Reach.refl "a") (by decide)
  exact (spec_c6 mapGhost ["a"] "a" "ghost" (by decide) hr (by decide)).2.1 5
    [("smoke", ["a"])] "smoke" envAll0 (by decide)

/-! ### C10 -/

/-- C10: a tier name whose key is present in `test_tiers` with a falsy
value is treated by `expand_dependencies` exactly like an undefined
tier: `getMeta` collapses it to `none`, no plan is ever produced, the
process exits 1 with no tier invoked, and (absent reachable cycles) the
failure is the `undefinedTier` configuration error. -/
theorem spec_c10 (m : TierMap) (req : List String) (u t : String)
    (hu : m.lookup u = some none) (ht : t ∈ req) (hr : Reach m t u) :
    getMeta m u = none ∧
    (∀ (fuel : Nat) (plan : List String),
      expand_dependencies m fuel req ≠ .ok plan) ∧
    (∀ (fuel : Nat) (cbs : List (String × List String)) (combo : String)
        (env : String → Option Int), cbs.lookup combo = some req →
      main_run ⟨m, cbs⟩ combo env fuel = (1, [])) ∧
    ((∀ x, ReachL m req x → ¬ hasCycle m x) →
      ∃ u2, (∃ t2 ∈ req, Reach m t2 u2) ∧ getMeta m u2 = none ∧
        expand_dependencies m ((keysOf m).length + 1) req =
          .error (.undefinedTier u2)) := by
  have hgu : getMeta m u = none := by
    simp [getMeta, hu]
  exact ⟨hgu, expand_reach_undef hgu ⟨t, ht, hr⟩⟩

/-- Witness for C10: the present-but-falsy entry `e` aborts the run the
same way an absent tier does. -/
theorem spec_c10_witness :
    main_run ⟨mapEmptyVal, [("smoke", ["a"])]⟩ "smoke" envAll0 5 = (1, []) := by
  have hr : Reach mapEmptyVal "a" "e" :=
    Reach.step (Reach.refl "a") (by decide)
  exact (spec_c10 mapEmptyVal ["a"] "e" "a" (by decide) (by decide) hr).2.2.1 5
    [("smoke", ["a"])] "smoke" envAll0 (by decide)

/-! ### C8 -/

/-- C8: `expand_dependencies` performs no cycle detection.  When the
dependency graph restricted to the tiers reachable from the request is
acyclic, the recursion terminates: the budget `|keys| + 1` is never
exhausted and every larger budget gives the same result.  When a cycle
is reachable from the request (through defined tiers), every recursion
budget is exhausted — the model of unbounded recursion — instead of a
graceful error. -/
theorem spec_c8 (m : TierMap) (req : List String) :
    ((∀ x, ReachL m req x → ¬ hasCycle m x) →
      expand_dependencies m ((keysOf m).length + 1) req ≠
        .error .fuelExhausted ∧
      ∀ g, (keysOf m).length + 1 ≤ g →
        expand_dependencies m g req =
          expand_dependencies m ((keysOf m).length + 1) req) ∧
    ((∀ x, ReachL m req x → definedTier m x = true) →
      (∃ x, ReachL m req x ∧ hasCycle m x) →
      ∀ fuel, expand_dependencies m fuel req = .error .fuelExhausted) := by
  constructor
  · intro hnc
    have hne := expand_ne_fuel (no_cycle_depth_req hnc)
    exact ⟨hne, fun g hg => expand_mono hg hne⟩
  · intro hdef hcyc fuel
    obtain ⟨x, hrl, hcy⟩ := hcyc
    rcases hcase : expand_dependencies m fuel req with e | plan
    · rcases e with u | _
      · obtain ⟨hreach, hgu⟩ := expand_undef_cause hcase
        have h2 : (getMeta m u).isSome = true := hdef u hreach
        rw [hgu] at h2
        cases h2
      · rfl
    · exact absurd hcy (expand_ok_no_cycle hcase x hrl)

/-- Witness for C8: the acyclic map `mapAB` terminates within the key
bound, while the self-loop `mapCyc` exhausts every budget. -/
theorem spec_c8_witness :
    expand_dependencies mapAB ((keysOf mapAB).length + 1) ["a"] ≠
      .error .fuelExhausted ∧
    expand_dependencies mapCyc 7 ["a"] = .error .fuelExhausted := by
  constructor
  · have hnc : ∀ x, ReachL mapAB ["a"] x → ¬ hasCycle mapAB x := by
      intro x hx hcy
      obtain ⟨t, ht, htr⟩ := hx
      have htA : t = "a" := by simpa using ht
      subst htA
      have hcl : ∀ y ∈ ["a", "b"], ∀ d ∈ depsOf mapAB y, d ∈ ["a", "b"] := by
        decide
      have hxm : x ∈ ["a", "b"] :=
        reach_mem_closed mapAB ["a", "b"] hcl (by decide) htr
      obtain ⟨d, hd, hdr⟩ := hcy
      rcases List.mem_cons.mp hxm with rfl | hxm2
      · have hdb : d = "b" := by
          have hdeq : depsOf mapAB "a" = ["b"] := by decide
          rw [hdeq] at hd
          simpa using hd
        subst hdb
        have hclb : ∀ y ∈ ["b"], ∀ d2 ∈ depsOf mapAB y, d2 ∈ ["b"] := by decide
        have := reach_mem_closed mapAB ["b"] hclb (by decide) hdr
        simp at this
      · have hxb : x = "b" := by simpa using hxm2
        subst hxb
        have hdeq : depsOf mapAB "b" = [] := by decide
        rw [hdeq] at hd
        simp at hd
    exact ((spec_c8 mapAB ["a"]).1 hnc).1
  · have hdef : ∀ x, ReachL mapCyc ["a"] x → definedTier mapCyc x = true := by
      intro x hx
      obtain ⟨t, ht, htr⟩ := hx
      have htA : t = "a" := by simpa using ht
      subst htA
      have hcl : ∀ y ∈ ["a"], ∀ d ∈ depsOf mapCyc y, d ∈ ["a"] := by decide
      have hxm : x ∈ ["a"] := reach_mem_closed mapCyc ["a"] hcl (by decide) htr
      have hxa : x = "a" := by simpa using hxm
      subst hxa
      decide
    have hcyc : ∃ x, ReachL mapCyc ["a"] x ∧ hasCycle mapCyc x :=
      ⟨"a", ⟨"a", by decide, Reach.refl "a"⟩, ⟨"a", by decide, Reach.refl "a"⟩⟩
    exact (spec_c8 mapCyc ["a"]).2 hdef hcyc 7
